import Mathlib

/-!
Shallow embedding of `formidable/forms/__init__.py` from django-formidable,
together with proofs about the conditional-field-removal pass, the dynamic
form-class builders, and the `to_formidable` / `get_clean_form` persistence
helpers.

Python dictionaries (`cleaned_data`, `self.errors`, `self.fields`, the
`condition_targets` catalog, the `OrderedDict` of produced form fields) are
embedded as association lists `List (String × α)` preserving insertion order.
Dictionary keys are unique in the source; lookup below is first-match, which
agrees with dictionary semantics on unique keys and is well defined on any
list.
-/

set_option autoImplicit false

namespace Formidable

/-- First-match lookup: Python `d[k]` / `d.get(k)`. -/
def getValue {α : Type} (k : String) : List (String × α) → Option α
  | [] => none
  | (k₁, v) :: rest => if k₁ = k then some v else getValue k rest

/-- Key-membership test: Python `k in d`. -/
def hasKey {α : Type} (k : String) : List (String × α) → Bool
  | [] => false
  | (k₁, _) :: rest => if k₁ = k then true else hasKey k rest

/-- Key removal: the effect of Python `d.pop(k, None)` (and of `del d[k]` when
`k` is present) on the dictionary. -/
def popKey {α : Type} : List (String × α) → String → List (String × α)
  | [], _ => []
  | (k₁, v) :: rest, k => if k₁ = k then popKey rest k else (k₁, v) :: popKey rest k

/-- Dictionary assignment `d[k] = v`: replaces in place when the key exists,
otherwise appends (insertion order). -/
def setKey {α : Type} : List (String × α) → String → α → List (String × α)
  | [], k, v => [(k, v)]
  | (k₁, v₁) :: rest, k, v =>
      if k₁ = k then (k, v) :: rest else (k₁, v₁) :: setKey rest k v

/-- A compiled condition, exactly as `BaseDynamicForm.get_removed_fields`
consumes it: the set of field slugs it targets (`fields_ids`) and the
`keep_fields(cleaned_data)` predicate.  `δ` is the type of the cleaned-data
snapshot. -/
structure Condition (δ : Type) where
  fields_ids : List String
  keep_fields : δ → Bool

/-- One catalog update: append `b` to `condition_targets[k]`, creating the
empty list first when `k` is not yet a key (lines 61-63 of the source). -/
def addTarget (m : List (String × List Bool)) (k : String) (b : Bool) :
    List (String × List Bool) :=
  match m with
  | [] => [(k, [b])]
  | (k₁, v) :: rest =>
      if k₁ = k then (k₁, v ++ [b]) :: rest else (k₁, v) :: addTarget rest k b

/-- The inner loop of `get_removed_fields`: record the evaluated
`keep_fields` value `b` under every slug in `fields_ids`. -/
def fillCatalog (m : List (String × List Bool)) (ids : List String) (b : Bool) :
    List (String × List Bool) :=
  ids.foldl (fun m₁ fid => addTarget m₁ fid b) m

/-- The catalog of fields targeted by the conditions: for each condition,
`keep_fields(cleaned_data)` is evaluated once and recorded under each of its
`fields_ids` (lines 53-63 of the source). -/
def conditionTargets {δ : Type} (conds : List (Condition δ)) (cd : δ) :
    List (String × List Bool) :=
  conds.foldl (fun m c => fillCatalog m c.fields_ids (c.keep_fields cd)) []

/-- `BaseDynamicForm.get_removed_fields`: reduce each slug's recorded list
with `any`, and return the slugs whose reduced value is false. -/
def get_removed_fields {δ : Type} (conds : List (Condition δ)) (cd : δ) :
    List String :=
  (((conditionTargets conds cd).map (fun kv => (kv.1, kv.2.any id))).filter
      (fun kv => !kv.2)).map Prod.fst

/-- The mutable state of one dynamic-form validation: `cleaned_data`,
`self.errors` and the active `self.fields` mapping.  `V`, `E`, `F` are the
types of cleaned values, recorded errors and field objects. -/
structure FormState (V E F : Type) where
  cleaned_data : List (String × V)
  errors : List (String × E)
  fields : List (String × F)

/-- The body of the removal loop in `BaseDynamicForm.clean` for one removed
slug: `cleaned_data.pop(field_id, None)`, `self.errors.pop(field_id, None)`,
and `del self.fields[field_id]` guarded by `field_id in self.fields`. -/
def removeField {V E F : Type} (st : FormState V E F) (field_id : String) :
    FormState V E F :=
  { cleaned_data := popKey st.cleaned_data field_id
    errors := popKey st.errors field_id
    fields :=
      if hasKey field_id st.fields then popKey st.fields field_id else st.fields }

/-- `BaseDynamicForm.clean`: compute the removed fields from the cleaned data
and delete each of them from all three mappings.  The Python method returns
the final `cleaned_data`, i.e. `(clean conds st).cleaned_data`. -/
def clean {V E F : Type} (conds : List (Condition (List (String × V))))
    (st : FormState V E F) : FormState V E F :=
  (get_removed_fields conds st.cleaned_data).foldl removeField st

/-- Python `del d[k]` as a fallible operation: fails (KeyError) when the key
is absent. -/
def delKey {α : Type} (m : List (String × α)) (k : String) :
    Option (List (String × α)) :=
  if hasKey k m then some (popKey m k) else none

/-- The removal-loop body with its genuinely fallible primitive made
explicit: the two `pop`s carry a default and are total, and the `del` on
`self.fields` is only executed under the `field_id in self.fields` guard. -/
def removeFieldChecked {V E F : Type} (st : FormState V E F)
    (field_id : String) : Option (FormState V E F) :=
  let cd := popKey st.cleaned_data field_id
  let es := popKey st.errors field_id
  if hasKey field_id st.fields then
    (delKey st.fields field_id).map (fun fs => ⟨cd, es, fs⟩)
  else
    some ⟨cd, es, st.fields⟩

/-- The whole removal loop of `clean` in the fallible model: `none` would
mean an uncaught exception inside the loop. -/
def cleanChecked {V E F : Type} (conds : List (Condition (List (String × V))))
    (st : FormState V E F) : Option (FormState V E F) :=
  (get_removed_fields conds st.cleaned_data).foldlM removeFieldChecked st

/-! Basic lemmas about the dictionary operations. -/

theorem getValue_popKey_self {α : Type} (m : List (String × α)) (k : String) :
    getValue k (popKey m k) = none := by
  induction m with
  | nil => rfl
  | cons kv rest ih =>
      obtain ⟨k₁, v⟩ := kv
      by_cases h : k₁ = k
      · simp [popKey, h, ih]
      · simp [popKey, getValue, h, ih]

theorem getValue_popKey_ne {α : Type} (m : List (String × α)) {s k : String}
    (h : s ≠ k) : getValue s (popKey m k) = getValue s m := by
  induction m with
  | nil => rfl
  | cons kv rest ih =>
      obtain ⟨k₁, v⟩ := kv
      by_cases h₁ : k₁ = k
      · have h₂ : k₁ ≠ s := fun hh => h (hh ▸ h₁)
        simp [popKey, getValue, h₁, h₂, Ne.symm h, ih]
      · by_cases h₂ : k₁ = s
        · simp [popKey, getValue, h₁, h₂, h, Ne.symm h]
        · simp [popKey, getValue, h₁, h₂, ih]

theorem hasKey_iff_getValue {α : Type} (m : List (String × α)) (k : String) :
    hasKey k m = true ↔ (getValue k m).isSome := by
  induction m with
  | nil => simp [hasKey, getValue]
  | cons kv rest ih =>
      obtain ⟨k₁, v⟩ := kv
      by_cases h : k₁ = k <;> simp [hasKey, getValue, h, ih]

theorem getValue_eq_none_of_hasKey_eq_false {α : Type} {m : List (String × α)}
    {k : String} (h : hasKey k m = false) : getValue k m = none := by
  cases hg : getValue k m with
  | none => rfl
  | some v =>
      have h₁ : hasKey k m = true := (hasKey_iff_getValue m k).mpr (by simp [hg])
      rw [h₁] at h
      cases h

theorem hasKey_iff_mem_keys {α : Type} (m : List (String × α)) (k : String) :
    hasKey k m = true ↔ k ∈ m.map Prod.fst := by
  induction m with
  | nil => simp [hasKey]
  | cons kv rest ih =>
      obtain ⟨k₁, v⟩ := kv
      by_cases h : k₁ = k
      · simp [hasKey, h]
      · simp only [hasKey, if_neg h, List.map_cons, List.mem_cons, ih]
        constructor
        · exact fun hh => Or.inr hh
        · rintro (hh | hh)
          · exact absurd hh.symm h
          · exact hh

/-! The catalog built by `get_removed_fields`, characterised through the
per-slug list of recorded `keep_fields` values. -/

/-- The list of booleans that `get_removed_fields` records in the catalog
under slug `k`: one copy of `keep_fields cd` per occurrence of `k` in the
condition's `fields_ids`, in condition order. -/
def hitsOf {δ : Type} (conds : List (Condition δ)) (cd : δ) (k : String) :
    List Bool :=
  match conds with
  | [] => []
  | c :: rest =>
      List.replicate (c.fields_ids.count k) (c.keep_fields cd) ++ hitsOf rest cd k

theorem getValue_addTarget (m : List (String × List Bool))
    (k₁ k : String) (b : Bool) :
    getValue k (addTarget m k₁ b) =
      if k₁ = k then some (((getValue k m).getD []) ++ [b]) else getValue k m := by
  induction m with
  | nil =>
      by_cases h : k₁ = k <;> simp [addTarget, getValue, h]
  | cons kv rest ih =>
      obtain ⟨k₂, v⟩ := kv
      by_cases h₂ : k₂ = k₁
      · subst h₂
        by_cases h : k₂ = k <;> simp [addTarget, getValue, h]
      · by_cases h : k₂ = k
        · subst h
          have h₃ : k₁ ≠ k₂ := fun hh => h₂ hh.symm
          simp [addTarget, getValue, h₂, h₃]
        · simp [addTarget, getValue, h₂, h, ih]

theorem getValue_fillCatalog (ids : List String) (m : List (String × List Bool))
    (b : Bool) (k : String) :
    getValue k (fillCatalog m ids b) =
      if ids.count k = 0 then getValue k m
      else some (((getValue k m).getD []) ++ List.replicate (ids.count k) b) := by
  induction ids generalizing m with
  | nil => simp [fillCatalog]
  | cons i ids ih =>
      have hstep : fillCatalog m (i :: ids) b = fillCatalog (addTarget m i b) ids b := rfl
      rw [hstep, ih]
      by_cases h : i = k
      · subst h
        have hc : (i :: ids).count i = ids.count i + 1 := by
          simp [List.count_cons]
        rw [hc]
        by_cases h₀ : ids.count i = 0
        · simp [h₀, getValue_addTarget, List.replicate_succ]
        · have hc1 : ¬ ids.count i + 1 = 0 := Nat.succ_ne_zero _
          rw [if_neg h₀, if_neg hc1]
          simp [getValue_addTarget, List.replicate_succ, List.append_assoc]
      · have hc : (i :: ids).count k = ids.count k := by
          simp [List.count_cons, h]
        rw [hc, getValue_addTarget, if_neg h]

theorem getValue_foldl_fillCatalog {δ : Type} (conds : List (Condition δ)) (cd : δ)
    (k : String) :
    ∀ m : List (String × List Bool),
      getValue k
          (conds.foldl (fun m₁ c => fillCatalog m₁ c.fields_ids (c.keep_fields cd)) m) =
        if hitsOf conds cd k = [] then getValue k m
        else some (((getValue k m).getD []) ++ hitsOf conds cd k) := by
  induction conds with
  | nil => intro m; simp [hitsOf]
  | cons c rest ih =>
      intro m
      have hstep :
          (c :: rest).foldl (fun m₁ c₁ => fillCatalog m₁ c₁.fields_ids (c₁.keep_fields cd)) m =
            rest.foldl (fun m₁ c₁ => fillCatalog m₁ c₁.fields_ids (c₁.keep_fields cd))
              (fillCatalog m c.fields_ids (c.keep_fields cd)) := rfl
      rw [hstep, ih, getValue_fillCatalog]
      by_cases h₀ : c.fields_ids.count k = 0
      · by_cases h₁ : hitsOf rest cd k = []
        · simp [hitsOf, h₀, h₁]
        · simp [hitsOf, h₀, h₁]
      · by_cases h₁ : hitsOf rest cd k = []
        · simp [hitsOf, h₀, h₁, List.replicate_eq_nil_iff]
        · have hne : List.replicate (c.fields_ids.count k) (c.keep_fields cd)
              ++ hitsOf rest cd k ≠ [] := by
            simp [List.replicate_eq_nil_iff, h₀]
          simp only [hitsOf, h₀, if_neg, if_false, hne, Option.getD_some,
            List.append_assoc]
          simp [h₁]

theorem getValue_conditionTargets {δ : Type} (conds : List (Condition δ)) (cd : δ)
    (k : String) :
    getValue k (conditionTargets conds cd) =
      if hitsOf conds cd k = [] then none else some (hitsOf conds cd k) := by
  have h := getValue_foldl_fillCatalog conds cd k []
  simpa [conditionTargets, getValue] using h

theorem keys_addTarget (m : List (String × List Bool)) (k : String) (b : Bool) :
    (addTarget m k b).map Prod.fst =
      if hasKey k m then m.map Prod.fst else m.map Prod.fst ++ [k] := by
  induction m with
  | nil => simp [addTarget, hasKey]
  | cons kv rest ih =>
      obtain ⟨k₁, v⟩ := kv
      by_cases h : k₁ = k
      · simp [addTarget, hasKey, h]
      · by_cases h₁ : hasKey k rest <;> simp [addTarget, hasKey, h, h₁, ih]

theorem nodupKeys_addTarget (m : List (String × List Bool)) (k : String) (b : Bool)
    (h : (m.map Prod.fst).Nodup) : ((addTarget m k b).map Prod.fst).Nodup := by
  rw [keys_addTarget]
  by_cases h₁ : hasKey k m
  · simpa [h₁] using h
  · have h₂ : k ∉ m.map Prod.fst := by
      intro hmem
      rw [(hasKey_iff_mem_keys m k).mpr hmem] at h₁
      exact h₁ rfl
    simp only [h₁, if_neg, Bool.false_eq_true, if_false]
    rw [List.nodup_append]
    refine ⟨h, List.nodup_singleton k, ?_⟩
    intro a ha hb
    rw [List.mem_singleton] at hb
    subst hb
    exact h₂ ha

theorem nodupKeys_fillCatalog (ids : List String) (m : List (String × List Bool))
    (b : Bool) (h : (m.map Prod.fst).Nodup) :
    ((fillCatalog m ids b).map Prod.fst).Nodup := by
  induction ids generalizing m with
  | nil => exact h
  | cons i ids ih => exact ih (addTarget m i b) (nodupKeys_addTarget m i b h)

theorem nodupKeys_conditionTargets {δ : Type} (conds : List (Condition δ)) (cd : δ) :
    ((conditionTargets conds cd).map Prod.fst).Nodup := by
  have hgen :
      ∀ m : List (String × List Bool), (m.map Prod.fst).Nodup →
        ((conds.foldl (fun m₁ c => fillCatalog m₁ c.fields_ids (c.keep_fields cd)) m).map
            Prod.fst).Nodup := by
    induction conds with
    | nil => exact fun m hm => hm
    | cons c rest ih =>
        intro m hm
        exact ih _ (nodupKeys_fillCatalog c.fields_ids m (c.keep_fields cd) hm)
  exact hgen [] (by simp)

theorem mem_iff_getValue {α : Type} {m : List (String × α)}
    (h : (m.map Prod.fst).Nodup) (k : String) (v : α) :
    (k, v) ∈ m ↔ getValue k m = some v := by
  induction m with
  | nil => simp [getValue]
  | cons kv rest ih =>
      obtain ⟨k₁, v₁⟩ := kv
      simp only [List.map_cons, List.nodup_cons] at h
      obtain ⟨hk₁, hrest⟩ := h
      by_cases hk : k₁ = k
      · subst hk
        have hg : getValue k₁ ((k₁, v₁) :: rest) = some v₁ := by simp [getValue]
        rw [hg]
        constructor
        · intro hh
          rcases List.mem_cons.mp hh with hh | hh
          · have hv : v = v₁ := congrArg Prod.snd hh
            rw [hv]
          · exact absurd (List.mem_map_of_mem Prod.fst hh) hk₁
        · intro hh
          have hv : v₁ = v := Option.some_inj.mp hh
          exact List.mem_cons.mpr (Or.inl (by rw [hv]))
      · have hg : getValue k ((k₁, v₁) :: rest) = getValue k rest := by
          simp [getValue, hk]
        rw [hg, ← ih hrest]
        constructor
        · intro hh
          rcases List.mem_cons.mp hh with hh | hh
          · exact absurd (congrArg Prod.fst hh).symm hk
          · exact hh
        · exact fun hh => List.mem_cons.mpr (Or.inr hh)

theorem any_replicate (n : Nat) (b : Bool) (p : Bool → Bool) :
    (List.replicate n b).any p = (decide (n ≠ 0) && p b) := by
  induction n with
  | zero => simp
  | succ n ih =>
      rw [List.replicate_succ, List.any_cons, ih]
      cases p b <;> simp

/-- Membership in the result of `get_removed_fields`, phrased through the
recorded per-slug boolean lists. -/
theorem mem_get_removed_fields_iff_hits {δ : Type} (conds : List (Condition δ))
    (cd : δ) (s : String) :
    s ∈ get_removed_fields conds cd ↔
      hitsOf conds cd s ≠ [] ∧ (hitsOf conds cd s).any id = false := by
  unfold get_removed_fields
  constructor
  · intro hmem
    obtain ⟨kv, hkv, hfst⟩ := List.mem_map.mp hmem
    obtain ⟨hkv₁, hkeep⟩ := List.mem_filter.mp hkv
    obtain ⟨kv₀, hkv₀, hmap⟩ := List.mem_map.mp hkv₁
    obtain ⟨k₀, l₀⟩ := kv₀
    have h₁ : k₀ = kv.1 := congrArg Prod.fst hmap
    have h₂ : l₀.any id = kv.2 := congrArg Prod.snd hmap
    have hfst₀ : k₀ = s := h₁.trans hfst
    subst hfst₀
    have hval : getValue k₀ (conditionTargets conds cd) = some l₀ :=
      (mem_iff_getValue (nodupKeys_conditionTargets conds cd) k₀ l₀).mp hkv₀
    rw [getValue_conditionTargets] at hval
    by_cases hnil : hitsOf conds cd k₀ = []
    · rw [if_pos hnil] at hval
      cases hval
    · rw [if_neg hnil] at hval
      have hl : l₀ = hitsOf conds cd k₀ := (Option.some_inj.mp hval).symm
      have hk2 : kv.2 = false := by simpa using hkeep
      refine ⟨hnil, ?_⟩
      rw [← hl, h₂, hk2]
  · rintro ⟨hnil, hany⟩
    have hval : getValue s (conditionTargets conds cd) = some (hitsOf conds cd s) := by
      rw [getValue_conditionTargets, if_neg hnil]
    have hmem₀ : (s, hitsOf conds cd s) ∈ conditionTargets conds cd :=
      (mem_iff_getValue (nodupKeys_conditionTargets conds cd) s _).mpr hval
    refine List.mem_map.mpr ⟨(s, (hitsOf conds cd s).any id), ?_, rfl⟩
    refine List.mem_filter.mpr ⟨List.mem_map.mpr ⟨(s, hitsOf conds cd s), hmem₀, rfl⟩, ?_⟩
    simp [hany]

theorem hitsOf_ne_nil_iff {δ : Type} (conds : List (Condition δ)) (cd : δ)
    (s : String) :
    hitsOf conds cd s ≠ [] ↔ ∃ c ∈ conds, s ∈ c.fields_ids := by
  induction conds with
  | nil => simp [hitsOf]
  | cons c rest ih =>
      have hunfold :
          hitsOf (c :: rest) cd s =
            List.replicate (c.fields_ids.count s) (c.keep_fields cd) ++
              hitsOf rest cd s := rfl
      rw [hunfold]
      simp only [ne_eq, List.append_eq_nil, List.replicate_eq_nil_iff,
        List.count_eq_zero, not_and_or, not_not, List.mem_cons]
      constructor
      · rintro (hh | hh)
        · exact ⟨c, Or.inl rfl, hh⟩
        · obtain ⟨c₁, hc₁, hs⟩ := ih.mp hh
          exact ⟨c₁, Or.inr hc₁, hs⟩
      · rintro ⟨c₁, hc₁ | hc₁, hs⟩
        · exact Or.inl (hc₁ ▸ hs)
        · exact Or.inr (ih.mpr ⟨c₁, hc₁, hs⟩)

theorem hitsOf_any_iff {δ : Type} (conds : List (Condition δ)) (cd : δ)
    (s : String) :
    (hitsOf conds cd s).any id = true ↔
      ∃ c ∈ conds, s ∈ c.fields_ids ∧ c.keep_fields cd = true := by
  induction conds with
  | nil => simp [hitsOf]
  | cons c rest ih =>
      have hunfold :
          hitsOf (c :: rest) cd s =
            List.replicate (c.fields_ids.count s) (c.keep_fields cd) ++
              hitsOf rest cd s := rfl
      rw [hunfold]
      simp only [List.any_append, any_replicate, Bool.or_eq_true, ih,
        Bool.and_eq_true, decide_eq_true_eq, ne_eq, List.count_eq_zero, not_not,
        id, List.mem_cons]
      constructor
      · rintro (⟨hs, hk⟩ | ⟨c₁, hc₁, hs, hk⟩)
        · exact ⟨c, Or.inl rfl, hs, hk⟩
        · exact ⟨c₁, Or.inr hc₁, hs, hk⟩
      · rintro ⟨c₁, hc₁ | hc₁, hs, hk⟩
        · subst hc₁
          exact Or.inl ⟨hs, hk⟩
        · exact Or.inr ⟨c₁, hc₁, hs, hk⟩

/-- Full characterisation of `get_removed_fields`: a slug is removed exactly
when some condition targets it and every condition targeting it evaluated its
`keep_fields` predicate to `false`. -/
theorem get_removed_fields_spec {δ : Type} (conds : List (Condition δ)) (cd : δ)
    (s : String) :
    s ∈ get_removed_fields conds cd ↔
      (∃ c ∈ conds, s ∈ c.fields_ids) ∧
        ∀ c ∈ conds, s ∈ c.fields_ids → c.keep_fields cd = false := by
  rw [mem_get_removed_fields_iff_hits, hitsOf_ne_nil_iff]
  constructor
  · rintro ⟨htgt, hany⟩
    refine ⟨htgt, fun c hc hs => ?_⟩
    by_contra hkeep
    have hk : c.keep_fields cd = true := by
      cases hkf : c.keep_fields cd
      · exact absurd hkf hkeep
      · rfl
    have : (hitsOf conds cd s).any id = true :=
      (hitsOf_any_iff conds cd s).mpr ⟨c, hc, hs, hk⟩
    rw [this] at hany
    cases hany
  · rintro ⟨htgt, hall⟩
    refine ⟨htgt, ?_⟩
    cases hany : (hitsOf conds cd s).any id
    · rfl
    · obtain ⟨c, hc, hs, hk⟩ := (hitsOf_any_iff conds cd s).mp hany
      rw [hall c hc hs] at hk
      cases hk

/-! The effect of the removal loop of `clean` on the three mappings. -/

theorem removeField_getValue {V E F : Type} (st : FormState V E F)
    (fid s : String) :
    (getValue s (removeField st fid).cleaned_data =
        if s = fid then none else getValue s st.cleaned_data)
  ∧ (getValue s (removeField st fid).errors =
        if s = fid then none else getValue s st.errors)
  ∧ (getValue s (removeField st fid).fields =
        if s = fid then none else getValue s st.fields) := by
  refine ⟨?_, ?_, ?_⟩
  · by_cases h : s = fid
    · subst h
      simp [removeField, getValue_popKey_self]
    · simp [removeField, h, getValue_popKey_ne _ h]
  · by_cases h : s = fid
    · subst h
      simp [removeField, getValue_popKey_self]
    · simp [removeField, h, getValue_popKey_ne _ h]
  · by_cases h : s = fid
    · subst h
      by_cases hh : hasKey s st.fields
      · simp [removeField, hh, getValue_popKey_self]
      · have hnone : getValue s st.fields = none :=
          getValue_eq_none_of_hasKey_eq_false (Bool.not_eq_true _ ▸ hh)
        simp [removeField, hh, hnone]
    · by_cases hh : hasKey fid st.fields
      · simp [removeField, hh, h, getValue_popKey_ne _ h]
      · simp [removeField, hh, h]

theorem foldl_removeField_getValue {V E F : Type} (rem : List String)
    (st : FormState V E F) (s : String) :
    (getValue s ((rem.foldl removeField st).cleaned_data) =
        if s ∈ rem then none else getValue s st.cleaned_data)
  ∧ (getValue s ((rem.foldl removeField st).errors) =
        if s ∈ rem then none else getValue s st.errors)
  ∧ (getValue s ((rem.foldl removeField st).fields) =
        if s ∈ rem then none else getValue s st.fields) := by
  induction rem generalizing st with
  | nil => simp
  | cons fid rem ih =>
      have hstep : (fid :: rem).foldl removeField st =
          rem.foldl removeField (removeField st fid) := rfl
      obtain ⟨ih₁, ih₂, ih₃⟩ := ih (removeField st fid)
      obtain ⟨hr₁, hr₂, hr₃⟩ := removeField_getValue st fid s
      rw [hstep]
      by_cases hs : s = fid
      · subst hs
        by_cases hm : s ∈ rem <;>
          simp [ih₁, ih₂, ih₃, hm, hr₁, hr₂, hr₃]
      · by_cases hm : s ∈ rem <;>
          simp [ih₁, ih₂, ih₃, hm, hr₁, hr₂, hr₃, List.mem_cons, hs]

/-- C1: for every cleaned-data snapshot and condition set, a slug targeted by
at least one condition is removed by `get_removed_fields` iff every condition
targeting it returned `keep_fields = false`; one targeting condition
returning `true` suffices to keep it (conflicts favour visibility). -/
theorem targeted_slug_removed_iff_all_false {δ : Type}
    (conds : List (Condition δ)) (cd : δ) (s : String)
    (h : ∃ c ∈ conds, s ∈ c.fields_ids) :
    s ∈ get_removed_fields conds cd ↔
      ∀ c ∈ conds, s ∈ c.fields_ids → c.keep_fields cd = false := by
  rw [get_removed_fields_spec]
  exact ⟨fun hh => hh.2, fun hh => ⟨h, hh⟩⟩

theorem targeted_slug_removed_iff_all_false_witness :
    (∃ c ∈ [Condition.mk ["a"] (fun _ : Nat => false)], "a" ∈ c.fields_ids)
  ∧ ("a" ∈ get_removed_fields [Condition.mk ["a"] (fun _ : Nat => false)] 0 ↔
      ∀ c ∈ [Condition.mk ["a"] (fun _ : Nat => false)],
        "a" ∈ c.fields_ids → c.keep_fields 0 = false) :=
  ⟨⟨Condition.mk ["a"] (fun _ : Nat => false), List.mem_singleton.mpr rfl, by simp⟩,
    targeted_slug_removed_iff_all_false _ 0 "a"
      ⟨Condition.mk ["a"] (fun _ : Nat => false), List.mem_singleton.mpr rfl, by simp⟩⟩

/-- C2: a slug that appears in no condition's `fields_ids` is never in the
set returned by `get_removed_fields`, and `clean` leaves its entry in
`cleaned_data`, `errors` and the active `fields` mapping unchanged. -/
theorem untargeted_slug_never_removed {V E F : Type}
    (conds : List (Condition (List (String × V)))) (st : FormState V E F)
    (s : String) (h : ∀ c ∈ conds, s ∉ c.fields_ids) :
    s ∉ get_removed_fields conds st.cleaned_data
  ∧ getValue s (clean conds st).cleaned_data = getValue s st.cleaned_data
  ∧ getValue s (clean conds st).errors = getValue s st.errors
  ∧ getValue s (clean conds st).fields = getValue s st.fields := by
  have hnot : s ∉ get_removed_fields conds st.cleaned_data := by
    intro hmem
    obtain ⟨⟨c, hc, hs⟩, _⟩ :=
      (get_removed_fields_spec conds st.cleaned_data s).mp hmem
    exact h c hc hs
  obtain ⟨h₁, h₂, h₃⟩ :=
    foldl_removeField_getValue (get_removed_fields conds st.cleaned_data) st s
  refine ⟨hnot, ?_, ?_, ?_⟩
  · simp only [clean]
    rw [h₁, if_neg hnot]
  · simp only [clean]
    rw [h₂, if_neg hnot]
  · simp only [clean]
    rw [h₃, if_neg hnot]

theorem untargeted_slug_never_removed_witness :
    (∀ c ∈ [Condition.mk ["b"] (fun _ : List (String × Nat) => false)],
        "a" ∉ c.fields_ids)
  ∧ ("a" ∉ get_removed_fields
        [Condition.mk ["b"] (fun _ : List (String × Nat) => false)]
        (FormState.mk (E := Unit) (F := Nat) [("a", 1)] [] [("a", 7)]).cleaned_data
    ∧ getValue "a" (clean [Condition.mk ["b"] (fun _ : List (String × Nat) => false)]
          (FormState.mk (E := Unit) (F := Nat) [("a", 1)] [] [("a", 7)])).cleaned_data =
        getValue "a" (FormState.mk (E := Unit) (F := Nat)
          [("a", 1)] [] [("a", 7)]).cleaned_data
    ∧ getValue "a" (clean [Condition.mk ["b"] (fun _ : List (String × Nat) => false)]
          (FormState.mk (E := Unit) (F := Nat) [("a", 1)] [] [("a", 7)])).errors =
        getValue "a" (FormState.mk (E := Unit) (F := Nat)
          [("a", 1)] [] [("a", 7)]).errors
    ∧ getValue "a" (clean [Condition.mk ["b"] (fun _ : List (String × Nat) => false)]
          (FormState.mk (E := Unit) (F := Nat) [("a", 1)] [] [("a", 7)])).fields =
        getValue "a" (FormState.mk (E := Unit) (F := Nat)
          [("a", 1)] [] [("a", 7)]).fields) :=
  ⟨by
    intro c hc
    rw [List.mem_singleton] at hc
    subst hc
    simp,
   untargeted_slug_never_removed _ _ "a" (by
    intro c hc
    rw [List.mem_singleton] at hc
    subst hc
    simp)⟩

/-- C3: permuting the condition list does not change the removed-field set
computed by `get_removed_fields` for any given cleaned data. -/
theorem get_removed_fields_perm_invariant {δ : Type}
    {conds₁ conds₂ : List (Condition δ)} (cd : δ) (h : conds₁.Perm conds₂) :
    (get_removed_fields conds₁ cd).toFinset =
      (get_removed_fields conds₂ cd).toFinset := by
  ext s
  simp only [List.mem_toFinset]
  rw [get_removed_fields_spec, get_removed_fields_spec]
  constructor
  · rintro ⟨⟨c, hc, hs⟩, hall⟩
    exact ⟨⟨c, h.mem_iff.mp hc, hs⟩,
      fun c₁ hc₁ hs₁ => hall c₁ (h.mem_iff.mpr hc₁) hs₁⟩
  · rintro ⟨⟨c, hc, hs⟩, hall⟩
    exact ⟨⟨c, h.mem_iff.mpr hc, hs⟩,
      fun c₁ hc₁ hs₁ => hall c₁ (h.mem_iff.mp hc₁) hs₁⟩

theorem get_removed_fields_perm_invariant_witness :
    (get_removed_fields
        [Condition.mk ["x"] (fun _ : Nat => false),
         Condition.mk ["y"] (fun _ : Nat => true)] 0).toFinset =
      (get_removed_fields
        [Condition.mk ["y"] (fun _ : Nat => true),
         Condition.mk ["x"] (fun _ : Nat => false)] 0).toFinset :=
  get_removed_fields_perm_invariant 0
    (List.Perm.swap (Condition.mk ["y"] (fun _ : Nat => true))
      (Condition.mk ["x"] (fun _ : Nat => false)) [])

/-- C4: the removal pass is deterministic — two runs over condition lists
whose `fields_ids` agree and whose pure `keep_fields` predicates agree on the
given cleaned data produce the same removed-field list. -/
theorem get_removed_fields_deterministic {δ : Type}
    {conds₁ conds₂ : List (Condition δ)} (cd : δ)
    (h : List.Forall₂
      (fun c₁ c₂ => c₁.fields_ids = c₂.fields_ids ∧
        c₁.keep_fields cd = c₂.keep_fields cd) conds₁ conds₂) :
    get_removed_fields conds₁ cd = get_removed_fields conds₂ cd := by
  have htargets : ∀ m : List (String × List Bool),
      conds₁.foldl (fun m₁ c => fillCatalog m₁ c.fields_ids (c.keep_fields cd)) m =
        conds₂.foldl (fun m₁ c => fillCatalog m₁ c.fields_ids (c.keep_fields cd)) m := by
    induction h with
    | nil => exact fun m => rfl
    | cons hc hrest ih =>
        intro m
        simp only [List.foldl_cons]
        rw [hc.1, hc.2]
        exact ih _
  unfold get_removed_fields conditionTargets
  rw [htargets []]

theorem get_removed_fields_deterministic_witness :
    get_removed_fields [Condition.mk ["a"] (fun _ : Nat => true)] 0 =
      get_removed_fields [Condition.mk ["a"] (fun n : Nat => decide (n = 0))] 0 :=
  get_removed_fields_deterministic 0
    (List.Forall₂.cons ⟨rfl, rfl⟩ List.Forall₂.nil)

/-- C5: `clean` deletes each removed slug from `cleaned_data`, from `errors`
and from the active `fields` mapping, leaves every non-removed slug's entry
unchanged in all three, and so the mapping it returns holds exactly the
non-removed slugs with their validated values. -/
theorem clean_frame_effect {V E F : Type}
    (conds : List (Condition (List (String × V)))) (st : FormState V E F)
    (s : String) :
    (getValue s (clean conds st).cleaned_data =
        if s ∈ get_removed_fields conds st.cleaned_data then none
        else getValue s st.cleaned_data)
  ∧ (getValue s (clean conds st).errors =
        if s ∈ get_removed_fields conds st.cleaned_data then none
        else getValue s st.errors)
  ∧ (getValue s (clean conds st).fields =
        if s ∈ get_removed_fields conds st.cleaned_data then none
        else getValue s st.fields) := by
  simp only [clean]
  exact foldl_removeField_getValue _ st s

/-- One iteration of the removal loop, with its fallible `del` modelled
explicitly, always succeeds and computes `removeField`. -/
theorem removeFieldChecked_eq {V E F : Type} (st : FormState V E F)
    (fid : String) :
    removeFieldChecked st fid = some (removeField st fid) := by
  unfold removeFieldChecked removeField delKey
  by_cases h : hasKey fid st.fields
  · simp [h]
  · simp [h]

/-- C8: the removal loop of `clean` never raises — every `pop` carries a
default and the `del` on `self.fields` is guarded, so the fallible model of
the loop returns exactly the total `clean`. -/
theorem clean_loop_never_raises {V E F : Type}
    (conds : List (Condition (List (String × V)))) (st : FormState V E F) :
    cleanChecked conds st = some (clean conds st) := by
  unfold cleanChecked clean
  generalize get_removed_fields conds st.cleaned_data = rem
  induction rem generalizing st with
  | nil => rfl
  | cons fid rem ih =>
      simp only [List.foldlM_cons, List.foldl_cons, removeFieldChecked_eq,
        Option.bind_eq_bind, Option.some_bind]
      exact ih (removeField st fid)

/-! The two form-class builders, `get_dynamic_form_class_from_schema` and
`get_dynamic_form_class`. -/

/-- A field definition as the builders consume it: slug, the persisted
`order` attribute, and the rest of the row (type, validations, accesses,
defaults, items), opaque to the orchestration and consumed only by the field
factory. -/
structure FieldDef (P : Type) where
  slug : String
  order : Nat
  payload : P

/-- The comparison relation of `.order_by('order')`. -/
def fieldOrderLE {P : Type} (a b : FieldDef P) : Prop := a.order ≤ b.order

instance {P : Type} : DecidableRel (fieldOrderLE (P := P)) :=
  fun a b => Nat.decLe a.order b.order

instance {P : Type} : IsTotal (FieldDef P) fieldOrderLE :=
  ⟨fun a b => Nat.le_total a.order b.order⟩

instance {P : Type} : IsTrans (FieldDef P) fieldOrderLE :=
  ⟨fun _ _ _ => Nat.le_trans⟩

/-- Django `fields.order_by('order')`: a stable sort of the field rows on the
persisted `order` attribute. -/
def sortedFields {P : Type} (fds : List (FieldDef P)) : List (FieldDef P) :=
  List.insertionSort fieldOrderLE fds

/-- Modelled from the spec: the comparison operator of a condition's
predicate.  `formidable.forms.conditions` is not among the sources at hand;
spec section 6 names a trigger field slug, a comparison operator and a
comparison value, with equality as the worked example. -/
inductive ConditionOperator
  | eq

/-- Modelled from the spec: one declarative condition specification —
trigger field slug, comparison operator, comparison value, target field
slugs, and the keep/remove polarity flag (spec section 6). -/
structure ConditionSpec (V : Type) where
  trigger_field : String
  operator : ConditionOperator
  value : V
  targets : List String
  display_when_holds : Bool

/-- Modelled from the spec: compilation of one condition specification into
an executable `Condition` exposing `fields_ids` and
`keep_fields(cleaned_data)` (spec section 4.2).  A trigger slug absent from
the cleaned data makes the predicate `false`, the reading the spec
recommends where it leaves the behaviour open. -/
def compileCondition {V : Type} [DecidableEq V] (spec : ConditionSpec V) :
    Condition (List (String × V)) :=
  { fields_ids := spec.targets
    keep_fields := fun cd =>
      let holds :=
        match getValue spec.trigger_field cd with
        | some v =>
            match spec.operator with
            | ConditionOperator.eq => decide (v = spec.value)
        | none => false
      if spec.display_when_holds then holds else !holds }

/-- Modelled from the spec: `conditions_register.build(fields, conditions)`
parses the ordered list of condition specifications into an immutable
sequence of compiled `Condition` objects, one per specification
(`formidable.forms.conditions` is not among the sources; spec section 4.2).
The built field mapping is received as an argument; how target slugs are
resolved against it is left open by the spec, and the compiled conditions
here do not consult it. -/
def conditions_register_build {V F : Type} [DecidableEq V]
    (fields : List (String × F)) (specs : List (ConditionSpec V)) :
    List (Condition (List (String × V))) :=
  specs.map compileCondition

/-- Python truthiness on an optional list: `x or []` (used for
`schema.get('conditions', None) or []` and `formidable.conditions or []`). -/
def orEmptyList {γ : Type} (o : Option (List γ)) : List γ :=
  match o with
  | none => []
  | some l => if l.isEmpty then [] else l

/-- The dynamically assembled form class: the produced field mapping (an
`OrderedDict` keyed by slug), the compiled `_conditions` attribute, and the
docstring that only the schema-based builder sets. -/
structure DynamicFormClass (V F : Type) where
  form_fields : List (String × F)
  conditions : List (Condition (List (String × V)))
  doc : Option String

/-- The field-collection loop shared by both builders: produce each field
definition in iteration order, skip those for which the factory raises
`SkipField` (`produce` returns `none`), and store every other produced field
under `attrs[slug]`. -/
def buildAttrs {P F : Type} (produce : FieldDef P → Option F)
    (fds : List (FieldDef P)) : List (String × F) :=
  fds.foldl
    (fun attrs fd =>
      match produce fd with
      | none => attrs
      | some f => setKey attrs fd.slug f) []

/-- The raw schema handed to `get_dynamic_form_class_from_schema`:
`description`, the field definitions in list order, and the optional
`conditions` entry (`none` stands for an absent or null key). -/
structure Schema (P V : Type) where
  description : String
  fields : List (FieldDef P)
  conditions : Option (List (ConditionSpec V))

/-- `get_dynamic_form_class_from_schema`: produce the fields in schema order
(skipping excluded ones), compile `conditions or []` against the built
mapping, and assemble the class with the schema description as docstring. -/
def get_dynamic_form_class_from_schema {P V F : Type} [DecidableEq V]
    (produce : FieldDef P → Option F) (schema : Schema P V) :
    DynamicFormClass V F :=
  let attrs := buildAttrs produce schema.fields
  { form_fields := attrs
    conditions := conditions_register_build attrs (orEmptyList schema.conditions)
    doc := some schema.description }

/-- The persisted formidable object as `get_dynamic_form_class` reads it: its
field rows and its raw `conditions` JSON (possibly null). -/
structure FormidableObj (P V : Type) where
  fields : List (FieldDef P)
  conditions : Option (List (ConditionSpec V))

/-- `get_dynamic_form_class`: iterate the persisted field rows ordered by
their `order` attribute, produce each with the role-aware factory (skipping
`SkipField`), compile `formidable.conditions or []`, and assemble the
class. -/
def get_dynamic_form_class {P V F R : Type} [DecidableEq V]
    (produce : FieldDef P → Option R → Option F)
    (formidable : FormidableObj P V) (role : Option R) : DynamicFormClass V F :=
  let attrs := buildAttrs (fun fd => produce fd role) (sortedFields formidable.fields)
  { form_fields := attrs
    conditions := conditions_register_build attrs (orEmptyList formidable.conditions)
    doc := none }

theorem hasKey_append {α : Type} (m₁ m₂ : List (String × α)) (k : String) :
    hasKey k (m₁ ++ m₂) = (hasKey k m₁ || hasKey k m₂) := by
  induction m₁ with
  | nil => simp [hasKey]
  | cons kv rest ih =>
      obtain ⟨k₁, v⟩ := kv
      by_cases h : k₁ = k <;> simp [hasKey, h, ih]

theorem setKey_of_hasKey_eq_false {α : Type} {m : List (String × α)} {k : String}
    (h : hasKey k m = false) (v : α) : setKey m k v = m ++ [(k, v)] := by
  induction m with
  | nil => rfl
  | cons kv rest ih =>
      obtain ⟨k₁, v₁⟩ := kv
      by_cases hk : k₁ = k
      · rw [hasKey, if_pos hk] at h
        cases h
      · rw [hasKey, if_neg hk] at h
        simp [setKey, hk, ih h]

theorem buildAttrs_eq_filterMap {P F : Type} (produce : FieldDef P → Option F)
    (fds : List (FieldDef P)) (h : (fds.map FieldDef.slug).Nodup) :
    buildAttrs produce fds =
      fds.filterMap (fun fd => (produce fd).map (fun f => (fd.slug, f))) := by
  have hgen : ∀ (fds : List (FieldDef P)) (attrs : List (String × F)),
      (fds.map FieldDef.slug).Nodup →
      (∀ fd ∈ fds, hasKey fd.slug attrs = false) →
      fds.foldl
          (fun attrs fd =>
            match produce fd with
            | none => attrs
            | some f => setKey attrs fd.slug f) attrs =
        attrs ++ fds.filterMap (fun fd => (produce fd).map (fun f => (fd.slug, f))) := by
    intro fds
    induction fds with
    | nil =>
        intro attrs _ _
        simp
    | cons fd fds ih =>
        intro attrs hnodup hdisj
        simp only [List.map_cons, List.nodup_cons] at hnodup
        obtain ⟨hslug, hnodup⟩ := hnodup
        cases hp : produce fd with
        | none =>
            simp only [List.foldl_cons, hp]
            rw [ih attrs hnodup
              (fun fd₁ hfd₁ => hdisj fd₁ (List.mem_cons.mpr (Or.inr hfd₁)))]
            simp [List.filterMap_cons, hp]
        | some f =>
            simp only [List.foldl_cons, hp]
            rw [setKey_of_hasKey_eq_false (hdisj fd (List.mem_cons_self fd fds)) f]
            have hd : ∀ fd₁ ∈ fds, hasKey fd₁.slug (attrs ++ [(fd.slug, f)]) = false := by
              intro fd₁ hfd₁
              have hne : fd.slug ≠ fd₁.slug := by
                intro hcontra
                exact hslug (hcontra ▸ List.mem_map_of_mem FieldDef.slug hfd₁)
              rw [hasKey_append]
              rw [hdisj fd₁ (List.mem_cons.mpr (Or.inr hfd₁))]
              simp [hasKey, hne]
            rw [ih (attrs ++ [(fd.slug, f)]) hnodup hd]
            simp [List.filterMap_cons, hp, List.append_assoc]
  exact hgen fds [] h (fun fd _ => rfl)

/-- C6: `get_dynamic_form_class` iterates the field definitions in ascending
persisted `order` (the iteration sequence is the discovered rows sorted
stably on `order`), every definition for which the factory signals skip is
absent from the produced field mapping, and every other definition appears
keyed by its slug. -/
theorem get_dynamic_form_class_spec {P V F R : Type} [DecidableEq V]
    (produce : FieldDef P → Option R → Option F)
    (formidable : FormidableObj P V) (role : Option R)
    (h : (formidable.fields.map FieldDef.slug).Nodup) :
    ((get_dynamic_form_class produce formidable role).form_fields =
        (sortedFields formidable.fields).filterMap
          (fun fd => (produce fd role).map (fun f => (fd.slug, f))))
  ∧ List.Sorted (· ≤ ·) ((sortedFields formidable.fields).map FieldDef.order)
  ∧ (sortedFields formidable.fields).Perm formidable.fields
  ∧ (∀ s : String,
      hasKey s (get_dynamic_form_class produce formidable role).form_fields = true ↔
        ∃ fd ∈ formidable.fields, fd.slug = s ∧ (produce fd role).isSome) := by
  have hperm : (sortedFields formidable.fields).Perm formidable.fields :=
    List.perm_insertionSort fieldOrderLE formidable.fields
  have hnodup : ((sortedFields formidable.fields).map FieldDef.slug).Nodup :=
    ((hperm.map FieldDef.slug).nodup_iff).mpr h
  have hfields :
      (get_dynamic_form_class produce formidable role).form_fields =
        (sortedFields formidable.fields).filterMap
          (fun fd => (produce fd role).map (fun f => (fd.slug, f))) := by
    show buildAttrs (fun fd => produce fd role) (sortedFields formidable.fields) = _
    exact buildAttrs_eq_filterMap _ _ hnodup
  refine ⟨hfields, ?_, hperm, ?_⟩
  · have hsorted : List.Sorted fieldOrderLE (sortedFields formidable.fields) :=
      List.sorted_insertionSort fieldOrderLE formidable.fields
    exact List.pairwise_map.mpr hsorted
  · intro s
    rw [hfields, hasKey_iff_mem_keys]
    constructor
    · intro hmem
      obtain ⟨kv, hkv, hfst⟩ := List.mem_map.mp hmem
      obtain ⟨fd, hfd, hsome⟩ := List.mem_filterMap.mp hkv
      cases hp : produce fd role with
      | none => rw [hp] at hsome; cases hsome
      | some f =>
          rw [hp] at hsome
          have hkv₁ : kv = (fd.slug, f) := (Option.some_inj.mp hsome).symm
          refine ⟨fd, hperm.mem_iff.mp hfd, ?_, by simp [hp]⟩
          rw [← hfst, hkv₁]
    · rintro ⟨fd, hfd, hslug, hsome⟩
      cases hp : produce fd role with
      | none => rw [hp] at hsome; cases hsome
      | some f =>
          refine List.mem_map.mpr ⟨(fd.slug, f), ?_, hslug⟩
          exact List.mem_filterMap.mpr ⟨fd, hperm.mem_iff.mpr hfd, by simp [hp]⟩

theorem get_dynamic_form_class_spec_witness :
    ((([FieldDef.mk "b" 2 (), FieldDef.mk "a" 1 (), FieldDef.mk "c" 3 ()] :
        List (FieldDef Unit)).map FieldDef.slug).Nodup)
  ∧ (((get_dynamic_form_class
        (fun fd (_ : Option String) =>
          if fd.slug = "c" then none else some fd.slug)
        (FormidableObj.mk (V := Nat)
          [FieldDef.mk "b" 2 (), FieldDef.mk "a" 1 (), FieldDef.mk "c" 3 ()] none)
        (some "guest")).form_fields =
      (sortedFields [FieldDef.mk "b" 2 (), FieldDef.mk "a" 1 (), FieldDef.mk "c" 3 ()]).filterMap
        (fun fd => ((fun fd (_ : Option String) =>
            if fd.slug = "c" then none else some fd.slug) fd (some "guest")).map
          (fun f => (fd.slug, f))))
    ∧ List.Sorted (· ≤ ·)
        ((sortedFields [FieldDef.mk "b" 2 (), FieldDef.mk "a" 1 (), FieldDef.mk "c" 3 ()]).map
          FieldDef.order)
    ∧ (sortedFields [FieldDef.mk "b" 2 (), FieldDef.mk "a" 1 (), FieldDef.mk "c" 3 ()]).Perm
        [FieldDef.mk "b" 2 (), FieldDef.mk "a" 1 (), FieldDef.mk "c" 3 ()]
    ∧ (∀ s : String,
        hasKey s (get_dynamic_form_class
          (fun fd (_ : Option String) =>
            if fd.slug = "c" then none else some fd.slug)
          (FormidableObj.mk (V := Nat)
            [FieldDef.mk "b" 2 (), FieldDef.mk "a" 1 (), FieldDef.mk "c" 3 ()] none)
          (some "guest")).form_fields = true ↔
          ∃ fd ∈ [FieldDef.mk "b" 2 (), FieldDef.mk "a" 1 (), FieldDef.mk "c" 3 ()],
            fd.slug = s ∧
              ((fun fd (_ : Option String) =>
                if fd.slug = "c" then none else some fd.slug) fd (some "guest")).isSome)) :=
  ⟨by decide,
    get_dynamic_form_class_spec
      (fun fd (_ : Option String) => if fd.slug = "c" then none else some fd.slug)
      (FormidableObj.mk (V := Nat)
        [FieldDef.mk "b" 2 (), FieldDef.mk "a" 1 (), FieldDef.mk "c" 3 ()] none)
      (some "guest") (by decide)⟩

/-- C9: when the schema's `conditions` entry is absent/null or the empty
list, the built form class carries an empty condition set, and `clean` with
that condition set removes nothing from any submission state. -/
theorem schema_without_conditions_removes_nothing {P V E F : Type} [DecidableEq V]
    (produce : FieldDef P → Option F) (schema : Schema P V)
    (h : schema.conditions = none ∨ schema.conditions = some []) :
    (get_dynamic_form_class_from_schema produce schema).conditions = []
  ∧ ∀ st : FormState V E F,
      clean (get_dynamic_form_class_from_schema produce schema).conditions st = st := by
  have hempty : orEmptyList schema.conditions = [] := by
    rcases h with h | h <;> simp [orEmptyList, h]
  have hc : (get_dynamic_form_class_from_schema produce schema).conditions = [] := by
    simp [get_dynamic_form_class_from_schema, conditions_register_build, hempty]
  refine ⟨hc, ?_⟩
  intro st
  rw [hc]
  rfl

theorem schema_without_conditions_removes_nothing_witness :
    ((Schema.mk (P := Unit) (V := Nat) "demo" [FieldDef.mk "a" 0 ()] none).conditions = none
      ∨ (Schema.mk (P := Unit) (V := Nat) "demo" [FieldDef.mk "a" 0 ()] none).conditions =
          some [])
  ∧ ((get_dynamic_form_class_from_schema
        (fun fd => some fd.slug)
        (Schema.mk (P := Unit) (V := Nat) "demo" [FieldDef.mk "a" 0 ()] none)).conditions = []
    ∧ ∀ st : FormState Nat Unit String,
        clean (get_dynamic_form_class_from_schema
          (fun fd => some fd.slug)
          (Schema.mk (P := Unit) (V := Nat) "demo" [FieldDef.mk "a" 0 ()] none)).conditions
          st = st) :=
  ⟨Or.inl rfl,
    schema_without_conditions_removes_nothing
      (fun fd => some fd.slug)
      (Schema.mk (P := Unit) (V := Nat) "demo" [FieldDef.mk "a" 0 ()] none)
      (Or.inl rfl)⟩

/-! The `FormidableForm.to_formidable` / `get_clean_form` persistence pair. -/

/-- A persisted `Formidable` row: primary key, label and description. -/
structure FormidableRec where
  pk : Nat
  label : String
  description : String
deriving DecidableEq

/-- A persisted field row attached to a formidable object: the owning form's
primary key, the `order` position, and the slug (whatever else
`field.to_formidable` writes is outside these sources). -/
structure FieldRow where
  form_pk : Nat
  order : Nat
  slug : String
deriving DecidableEq

/-- The relevant slice of the database: the `Formidable` rows, the field
rows, and the next fresh primary key `objects.create` would hand out. -/
structure DB where
  forms : List FormidableRec
  field_rows : List FieldRow
  next_pk : Nat

/-- Python truthiness of an optional string argument: `None` and the empty
string are falsy. -/
def truthy : Option String → Bool
  | none => false
  | some s => !s.isEmpty

/-- Python `a or b` for an optional string `a`: yields `b` when `a` is
`None` or the empty string. -/
def orString (o : Option String) (d : String) : String :=
  match o with
  | none => d
  | some s => if s.isEmpty then d else s

/-- `FormidableForm.get_clean_form`: delete every field row attached to the
form (`form.fields.all().delete()`); then, when description or label is
truthy, update both values — substituting the stored value for a falsy
argument — in the database row and on the in-memory object; otherwise leave
label and description untouched. -/
def get_clean_form (db : DB) (form : FormidableRec)
    (label description : Option String) : DB × FormidableRec :=
  let rows := db.field_rows.filter (fun r => !(r.form_pk == form.pk))
  if truthy description || truthy label then
    let newLabel := orString label form.label
    let newDescription := orString description form.description
    let forms := db.forms.map (fun r =>
      if r.pk = form.pk then
        { r with label := newLabel, description := newDescription }
      else r)
    ({ db with forms := forms, field_rows := rows },
      { form with label := newLabel, description := newDescription })
  else
    ({ db with field_rows := rows }, form)

/-- The field-persisting loop at the end of `to_formidable`: each declared
field writes one row attached to `form`, with consecutive `order` values
starting at 0 (the row writing itself is done by the field objects, outside
these sources). -/
def attachDeclaredFields (db : DB) (form : FormidableRec)
    (declared_fields : List String) : DB × FormidableRec :=
  let db₁ := (declared_fields.foldl
    (fun (acc : DB × Nat) slug =>
      ({ acc.1 with
          field_rows := acc.1.field_rows ++ [FieldRow.mk form.pk acc.2 slug] },
        acc.2 + 1))
    (db, 0)).1
  (db₁, form)

/-- `FormidableForm.to_formidable`: with no instance, a falsy label raises
`ValueError("Label is required on creation mode")` before anything is
created; otherwise a fresh `Formidable` row is created with the given label
and `description or ''`.  With an instance, the form is first cleaned via
`get_clean_form`.  In both surviving branches the declared fields are then
written in declaration order. -/
def to_formidable (declared_fields : List String) (db : DB)
    (label description : Option String) (instanceOpt : Option FormidableRec) :
    Except String (DB × FormidableRec) :=
  match instanceOpt with
  | none =>
      if truthy label = false then
        Except.error "Label is required on creation mode"
      else
        let descriptionVal := orString description ""
        let form : FormidableRec :=
          { pk := db.next_pk, label := orString label "", description := descriptionVal }
        let db₁ : DB :=
          { db with forms := db.forms ++ [form], next_pk := db.next_pk + 1 }
        Except.ok (attachDeclaredFields db₁ form declared_fields)
  | some inst =>
      let cleaned := get_clean_form db inst label description
      Except.ok (attachDeclaredFields cleaned.1 cleaned.2 declared_fields)

theorem attachDeclaredFields_forms (db : DB) (form : FormidableRec)
    (ds : List String) :
    (attachDeclaredFields db form ds).1.forms = db.forms
  ∧ (attachDeclaredFields db form ds).2 = form := by
  have hgen : ∀ (ds : List String) (acc : DB × Nat),
      ((ds.foldl
          (fun (acc : DB × Nat) slug =>
            ({ acc.1 with
                field_rows := acc.1.field_rows ++ [FieldRow.mk form.pk acc.2 slug] },
              acc.2 + 1)) acc).1).forms = acc.1.forms := by
    intro ds
    induction ds with
    | nil => intro acc; rfl
    | cons d ds ih => intro acc; exact ih _
  exact ⟨hgen ds (db, 0), rfl⟩

/-- C7: calling `to_formidable` with no instance and a falsy label raises
`ValueError("Label is required on creation mode")` without creating any form
object; with no instance and a non-empty label it creates a new formidable
object carrying that label and the given description, or the empty string
when the description is absent. -/
theorem to_formidable_creation (declared_fields : List String) (db : DB)
    (label description : Option String) :
    (truthy label = false →
      to_formidable declared_fields db label description none =
        Except.error "Label is required on creation mode")
  ∧ (∀ s : String, label = some s → s ≠ "" →
      ∃ db₁ form,
        to_formidable declared_fields db label description none =
            Except.ok (db₁, form)
          ∧ form.label = s
          ∧ form.description = orString description ""
          ∧ form ∈ db₁.forms) := by
  constructor
  · intro h
    simp [to_formidable, h]
  · intro s hs hne
    subst hs
    have hemp : s.isEmpty = false := by
      cases he : s.isEmpty
      · rfl
      · exact absurd ((String.isEmpty_iff s).mp he) hne
    have ht : truthy (some s) = true := by simp [truthy, hemp]
    have hlab : orString (some s) "" = s := by simp [orString, hemp]
    refine ⟨(attachDeclaredFields
        { db with
            forms := db.forms ++
              [{ pk := db.next_pk, label := orString (some s) "",
                  description := orString description "" }],
            next_pk := db.next_pk + 1 }
        { pk := db.next_pk, label := orString (some s) "",
            description := orString description "" } declared_fields).1,
      { pk := db.next_pk, label := orString (some s) "",
          description := orString description "" }, ?_, ?_, ?_, ?_⟩
    · simp only [to_formidable, ht, Bool.true_eq_false, if_false]
      rfl
    · exact hlab
    · rfl
    · have hatt := attachDeclaredFields_forms
        { db with
            forms := db.forms ++
              [{ pk := db.next_pk, label := orString (some s) "",
                  description := orString description "" }],
            next_pk := db.next_pk + 1 }
        { pk := db.next_pk, label := orString (some s) "",
            description := orString description "" } declared_fields
      rw [hatt.1]
      exact List.mem_append.mpr (Or.inr (List.mem_singleton.mpr rfl))

theorem to_formidable_creation_witness :
    (to_formidable ["f1"] (DB.mk [] [] 0) none (some "desc") none =
        Except.error "Label is required on creation mode")
  ∧ (∃ db₁ form,
      to_formidable ["f1"] (DB.mk [] [] 0) (some "lbl") (some "desc") none =
          Except.ok (db₁, form)
        ∧ form.label = "lbl"
        ∧ form.description = orString (some "desc") ""
        ∧ form ∈ db₁.forms) :=
  ⟨(to_formidable_creation ["f1"] (DB.mk [] [] 0) none (some "desc")).1 rfl,
    (to_formidable_creation ["f1"] (DB.mk [] [] 0) (some "lbl") (some "desc")).2
      "lbl" rfl (by decide)⟩

/-- C10: called on an existing instance, `get_clean_form` unconditionally
deletes every field row attached to it; it updates label and description —
in the database row and on the in-memory object — only when at least one of
the two arguments is truthy, substituting the stored value for a falsy
argument; when both are falsy, label and description are left unchanged. -/
theorem get_clean_form_spec (db : DB) (form : FormidableRec)
    (label description : Option String) :
    (∀ r : FieldRow,
        r ∈ (get_clean_form db form label description).1.field_rows ↔
          r ∈ db.field_rows ∧ r.form_pk ≠ form.pk)
  ∧ (truthy label = false → truthy description = false →
      (get_clean_form db form label description).2 = form
      ∧ (get_clean_form db form label description).1.forms = db.forms)
  ∧ ((truthy label = true ∨ truthy description = true) →
      (get_clean_form db form label description).2.label = orString label form.label
      ∧ (get_clean_form db form label description).2.description =
          orString description form.description
      ∧ (get_clean_form db form label description).1.forms =
          db.forms.map (fun r =>
            if r.pk = form.pk then
              { r with
                  label := orString label form.label
                  description := orString description form.description }
            else r)) := by
  by_cases hg : (truthy description || truthy label) = true
  · refine ⟨?_, ?_, ?_⟩
    · intro r
      simp [get_clean_form, hg, List.mem_filter]
    · intro hl hd
      rw [hd, hl] at hg
      cases hg
    · intro _
      refine ⟨?_, ?_, ?_⟩ <;> simp [get_clean_form, hg]
  · have hg₁ : (truthy description || truthy label) = false :=
      Bool.not_eq_true _ ▸ hg
    refine ⟨?_, ?_, ?_⟩
    · intro r
      simp [get_clean_form, hg₁, List.mem_filter]
    · intro _ _
      constructor <;> simp [get_clean_form, hg₁]
    · rintro (hl | hd)
      · rw [Bool.or_eq_false_iff] at hg₁
        rw [hl] at hg₁
        cases hg₁.2
      · rw [Bool.or_eq_false_iff] at hg₁
        rw [hd] at hg₁
        cases hg₁.1

theorem get_clean_form_spec_witness :
    ((get_clean_form (DB.mk [FormidableRec.mk 1 "L" "D"] [FieldRow.mk 1 0 "a"] 2)
          (FormidableRec.mk 1 "L" "D") none none).2 = FormidableRec.mk 1 "L" "D"
      ∧ (get_clean_form (DB.mk [FormidableRec.mk 1 "L" "D"] [FieldRow.mk 1 0 "a"] 2)
          (FormidableRec.mk 1 "L" "D") none none).1.forms =
            (DB.mk [FormidableRec.mk 1 "L" "D"] [FieldRow.mk 1 0 "a"] 2).forms)
  ∧ ((get_clean_form (DB.mk [FormidableRec.mk 1 "L" "D"] [FieldRow.mk 1 0 "a"] 2)
          (FormidableRec.mk 1 "L" "D") (some "New") none).2.label =
        orString (some "New") (FormidableRec.mk 1 "L" "D").label
      ∧ (get_clean_form (DB.mk [FormidableRec.mk 1 "L" "D"] [FieldRow.mk 1 0 "a"] 2)
          (FormidableRec.mk 1 "L" "D") (some "New") none).2.description =
            orString none (FormidableRec.mk 1 "L" "D").description
      ∧ (get_clean_form (DB.mk [FormidableRec.mk 1 "L" "D"] [FieldRow.mk 1 0 "a"] 2)
          (FormidableRec.mk 1 "L" "D") (some "New") none).1.forms =
            (DB.mk [FormidableRec.mk 1 "L" "D"] [FieldRow.mk 1 0 "a"] 2).forms.map
              (fun r =>
                if r.pk = (FormidableRec.mk 1 "L" "D").pk then
                  { r with
                      label := orString (some "New") (FormidableRec.mk 1 "L" "D").label
                      description :=
                        orString none (FormidableRec.mk 1 "L" "D").description }
                else r)) :=
  ⟨(get_clean_form_spec (DB.mk [FormidableRec.mk 1 "L" "D"] [FieldRow.mk 1 0 "a"] 2)
      (FormidableRec.mk 1 "L" "D") none none).2.1 rfl rfl,
    (get_clean_form_spec (DB.mk [FormidableRec.mk 1 "L" "D"] [FieldRow.mk 1 0 "a"] 2)
      (FormidableRec.mk 1 "L" "D") (some "New") none).2.2 (Or.inl (by decide))⟩

end Formidable
